import Mathlib

/- Verification of the influence-detector backend core: the functions
`preprocess_chat`, `analyze_message` and `analyze_chat` of `utils.py`.

Modelling conventions:
* Python strings are `List Char`; `str` maps a Lean string literal to it.
* The Python global `random` generator is modelled by an explicit stream
  `rs : Nat → ℚ` of `random.random()` samples (uniform on [0, 1]),
  consumed left to right through an explicit draw counter, so that
  `random.uniform a b` becomes `uniform a b (rs k)` for the current
  counter value `k`.
* `round(x, 2)` is modelled as exact rational rounding to two decimal
  places, half to even as in Python's `round` (Python rounds IEEE
  doubles; all properties proved here are insensitive to that
  difference and hold for the exact rational rounding).
* Only the ASCII-and-Latin-1 part of Python's whitespace and
  line-boundary character classes is modelled; no claim depends on the
  exotic Unicode space characters. -/

/-- The characters of a string literal: the model of a Python `str` value. -/
def str (s : String) : List Char := s.data

/-- The apostrophe character, written through its code point. -/
def apos : Char := Char.ofNat 39

/-- Whitespace characters recognised by Python's `str.strip()` and by the
regex class `\s` (ASCII part plus NEL and NBSP). -/
def wsChars : List Char :=
  [' ', '\t', '\n', '\r', Char.ofNat 11, Char.ofNat 12, Char.ofNat 28,
   Char.ofNat 29, Char.ofNat 30, Char.ofNat 31, Char.ofNat 133, Char.ofNat 160]

/-- Whether a character is whitespace. -/
def isWs (c : Char) : Bool := wsChars.contains c

/-- The line-boundary characters of Python's `str.splitlines()`
(ASCII and Latin-1 part plus the Unicode line and paragraph separators). -/
def lineBreakChars : List Char :=
  ['\n', '\r', Char.ofNat 11, Char.ofNat 12, Char.ofNat 28, Char.ofNat 29,
   Char.ofNat 30, Char.ofNat 133, Char.ofNat 0x2028, Char.ofNat 0x2029]

/-- Whether a character is a line boundary for `splitlines`. -/
def isLineBreak (c : Char) : Bool := lineBreakChars.contains c

/-- Worker for `splitlines`: `acc` is the reversed current segment.
CR immediately followed by LF counts as a single boundary; the segment
after the final boundary is kept only when it is nonempty. -/
def splitlinesAux : List Char → List Char → List (List Char)
  | [], acc => if acc.isEmpty then [] else [acc.reverse]
  | '\r' :: '\n' :: cs, acc => acc.reverse :: splitlinesAux cs []
  | c :: cs, acc =>
    if isLineBreak c then acc.reverse :: splitlinesAux cs []
    else splitlinesAux cs (c :: acc)

/-- Python's `str.splitlines()`. -/
def splitlines (s : List Char) : List (List Char) := splitlinesAux s []

/-- Python's `str.strip()` with no argument: drop leading and trailing
whitespace. -/
def strip (s : List Char) : List Char :=
  ((s.dropWhile isWs).reverse.dropWhile isWs).reverse

/-- Worker for `collapseWs`: the flag records whether the previous
character was whitespace (so the current run is already represented). -/
def collapseWsAux : Bool → List Char → List Char
  | _, [] => []
  | inRun, c :: cs =>
    if isWs c then
      if inRun then collapseWsAux true cs else ' ' :: collapseWsAux true cs
    else c :: collapseWsAux false cs

/-- `re.sub(r"\s+", " ", s)`: replace each maximal whitespace run by one
space. -/
def collapseWs (s : List Char) : List Char := collapseWsAux false s

/-- The helper `_norm` of `utils.py`: strip, lowercase, then collapse
whitespace runs to single spaces. -/
def _norm (text : List Char) : List Char :=
  collapseWs ((strip text).map Char.toLower)

/-- Python's substring containment `needle in hay`. -/
def substrIn (needle : List Char) : List Char → Bool
  | [] => needle.isEmpty
  | c :: cs => needle.isPrefixOf (c :: cs) || substrIn needle cs

/-- A segmented chat message, the dict `{"speaker": ..., "text": ...}`
produced by `preprocess_chat`. -/
structure Message where
  speaker : List Char
  text : List Char
deriving DecidableEq

/-- The character class `[A-Za-z0-9_]` of the speaker pattern. -/
def isWordChar (c : Char) : Bool :=
  decide (('A' ≤ c ∧ c ≤ 'Z') ∨ ('a' ≤ c ∧ c ≤ 'z') ∨ ('0' ≤ c ∧ c ≤ '9') ∨ c = '_')

/-- The compiled pattern `^\s*([A-Za-z0-9_]+)\s*:\s*(.+)$` applied with
`re.match`. Word characters, whitespace and the colon are pairwise
disjoint, so the greedy token and whitespace stars never backtrack; the
only give-back point is the whitespace star after the colon when the rest
of the line is all whitespace, where `(.+)$` then takes exactly the final
character. (`preprocess_chat` only matches stripped lines, which never
end in whitespace, so that branch is unreachable from the program; it is
kept for fidelity to the regex. Lines produced by `splitlines` contain no
newline, so `.` behaves as an arbitrary character.) -/
def speakerMatch (l : List Char) : Option (List Char × List Char) :=
  let l1 := l.dropWhile isWs
  let tok := l1.takeWhile isWordChar
  let r1 := l1.dropWhile isWordChar
  if tok.isEmpty then none
  else
    match r1.dropWhile isWs with
    | [] => none
    | c2 :: rest =>
      if c2 = ':' then
        let t := rest.dropWhile isWs
        if t.isEmpty then
          match rest.getLast? with
          | some c3 => some (tok, [c3])
          | none => none
        else some (tok, t)
      else none

/-- The body of the `preprocess_chat` loop for one nonblank stripped
line: build a `Message` from the pattern match, or fall back to the
`Unknown` speaker with the full stripped line as text. -/
def lineToMsg (line : List Char) : Message :=
  match speakerMatch line with
  | some st => ⟨st.1, st.2⟩
  | none => ⟨str "Unknown", line⟩

/-- The `preprocess_chat` loop over the list of raw lines: strip each
line, skip it when blank, otherwise append the message built from it. -/
def preprocessLines : List (List Char) → List Message
  | [] => []
  | raw :: rest =>
    let line := strip raw
    if line.isEmpty then preprocessLines rest
    else lineToMsg line :: preprocessLines rest

/-- `preprocess_chat` of `utils.py`. -/
def preprocess_chat (chat_text : List Char) : List Message :=
  preprocessLines (splitlines chat_text)

/-- Trigger "you're the only one". -/
def trigYoureOnly : List Char := str "you" ++ [apos] ++ str "re the only one"

/-- Trigger "you're the best". -/
def trigYoureBest : List Char := str "you" ++ [apos] ++ str "re the best"

/-- Trigger "if you don't". -/
def trigIfYouDont : List Char := str "if you don" ++ [apos] ++ str "t"

/-- Trigger "you'll regret". -/
def trigYoullRegret : List Char := str "you" ++ [apos] ++ str "ll regret"

/-- Acceptance keyword "i'll". -/
def kwIll : List Char := str "i" ++ [apos] ++ str "ll"

/-- `MANIPULATION_RULES` of `utils.py`: an ordered association list,
mirroring the insertion order of the Python dict (Python dicts preserve
insertion order, which is the iteration order of `.items()`). -/
def MANIPULATION_RULES : List (List Char × List (List Char)) :=
  [(str "guilt-tripping",
     [str "after all", str "because i", str "you owed me", str "you owe me",
      str "you should have"]),
   (str "flattery",
     [trigYoureOnly, trigYoureBest, str "no one else like you", str "only you can"]),
   (str "fear-pressure",
     [trigIfYouDont, str "or else", str "you will regret", trigYoullRegret])]

/-- `ACCEPTANCE_KEYWORDS` of `utils.py`. -/
def ACCEPTANCE_KEYWORDS : List (List Char) :=
  [str "okay", str "ok", str "fine", kwIll, str "i will", str "sure",
   str "alright", str "accepted", str "yes"]

/-- `random.uniform a b` given the raw `random.random()` sample `r`:
`a + (b - a) * r`. -/
def uniform (a b r : ℚ) : ℚ := a + (b - a) * r

/-- Round a rational to the nearest integer, half to even, as Python's
built-in `round`. `Rat.floor` is used (rather than `Int.floor`) to keep
the definition kernel-computable. -/
def roundHalfEven (q : ℚ) : ℤ :=
  let f := q.floor
  let r := q - (f : ℚ)
  if r < 1/2 then f
  else if 1/2 < r then f + 1
  else if f % 2 = 0 then f else f + 1

/-- Python's `round(q, 2)` on exact rationals. -/
def round2 (q : ℚ) : ℚ := ((roundHalfEven (q * 100) : ℤ) : ℚ) / 100

/-- The inner loop of `analyze_message`: the first trigger of the list
(in declared order) contained in the normalized text. -/
def findTrigger (triggers : List (List Char)) (n : List Char) : Option (List Char) :=
  triggers.find? (fun t => substrIn t n)

/-- The double loop of `analyze_message`: the first category (in declared
order) one of whose triggers is contained in the normalized text,
together with that first trigger. -/
def findRule : List (List Char × List (List Char)) → List Char → Option (List Char × List Char)
  | [], _ => none
  | lt :: rest, n =>
    match findTrigger lt.2 n with
    | some t => some (lt.1, t)
    | none => findRule rest n

/-- The explanation template of `analyze_message` for a matched trigger:
`f"Phrase '{trig}' detected; suggests {label.replace('-', ' ')}."`. -/
def explTrigger (trig label : List Char) : List Char :=
  str "Phrase " ++ [apos] ++ trig ++ [apos] ++ str " detected; suggests " ++
    label.map (fun c => if c = '-' then ' ' else c) ++ str "."

/-- The fallback explanation of `analyze_message`. -/
def noKeywordExplanation : List Char := str "No manipulation keyword detected."

/-- `analyze_message` of `utils.py`. Besides the `(label, confidence,
explanation)` triple it returns the advanced draw counter: exactly one
`random.uniform(0.7, 0.95)` draw happens on every path. -/
def analyze_message (rs : Nat → ℚ) (k : Nat) (text : List Char) :
    (List Char × ℚ × List Char) × Nat :=
  match findRule MANIPULATION_RULES (_norm text) with
  | some lt =>
    ((lt.1, round2 (uniform (7/10) (19/20) (rs k)), explTrigger lt.2 lt.1), k + 1)
  | none =>
    ((str "neutral", round2 (uniform (7/10) (19/20) (rs k)), noKeywordExplanation), k + 1)

/-- A per-message analysis result, the dict appended by `analyze_chat`. -/
structure Analysis where
  speaker : List Char
  text : List Char
  label : List Char
  confidence : ℚ
  explanation : List Char
deriving DecidableEq

/-- `contains_acceptance` of `analyze_chat`: some acceptance keyword is a
substring of the normalized text. -/
def hasAcceptance (text : List Char) : Bool :=
  ACCEPTANCE_KEYWORDS.any (fun kw => substrIn kw (_norm text))

/-- The explanation template of the pressured-acceptance override. -/
def paExplanation (sp : List Char) : List Char :=
  str "Message contains acceptance keywords and was preceded by a manipulative message from " ++
    sp ++ str ". This suggests pressured acceptance."

/-- The body of the `analyze_chat` loop for one message: run
`analyze_message`, then apply the pressured-acceptance override when the
current normalized text contains an acceptance keyword, a previous
analysis exists, its label is not `neutral`, and its speaker differs
from the current one. Returns the analysis and the advanced draw
counter. -/
def stepA (rs : Nat → ℚ) (k : Nat) (prev : Option Analysis) (msg : Message) :
    Analysis × Nat :=
  let am := analyze_message rs k msg.text
  let base : Analysis := ⟨msg.speaker, msg.text, am.1.1, am.1.2.1, am.1.2.2⟩
  let k1 := am.2
  match prev with
  | some p =>
    if hasAcceptance msg.text = true ∧ p.label ≠ str "neutral" ∧ p.speaker ≠ msg.speaker then
      (⟨msg.speaker, msg.text, str "pressured acceptance",
        round2 (uniform (3/4) (97/100) (rs k1)), paExplanation p.speaker⟩, k1 + 1)
    else (base, k1)
  | none => (base, k1)

/-- The `analyze_chat` loop: thread the previous finalized analysis, the
draw counter, and the running count of non-`neutral` final labels. -/
def analyzeGo (rs : Nat → ℚ) : Nat → Option Analysis → Nat → List Message →
    List Analysis × Nat
  | _, _, cnt, [] => ([], cnt)
  | k, prev, cnt, msg :: rest =>
    let ak := stepA rs k prev msg
    let cnt1 := if ak.1.label ≠ str "neutral" then cnt + 1 else cnt
    let orest := analyzeGo rs ak.2 (some ak.1) cnt1 rest
    (ak.1 :: orest.1, orest.2)

/-- `analyze_chat` of `utils.py`: the analyzed list together with
`influence_score = round(manipulative_count / max(len(messages), 1), 2)`. -/
def analyze_chat (rs : Nat → ℚ) (messages : List Message) : List Analysis × ℚ :=
  let r := analyzeGo rs 0 none 0 messages
  (r.1, round2 ((r.2 : ℚ) / ((max messages.length 1 : ℕ) : ℚ)))

/-- Specification-side restatement of the rule-based label of
`analyze_message` (no randomness involved). -/
def ruleLabel (text : List Char) : List Char :=
  match findRule MANIPULATION_RULES (_norm text) with
  | some lt => lt.1
  | none => str "neutral"

/-- Specification-side one-step label function: the final label of a
message as a function of its own content and of the immediately
preceding finalized analysis only (represented by its speaker and
label). -/
def labelStep (prev : Option (List Char × List Char)) (msg : Message) : List Char :=
  match prev with
  | some sl =>
    if hasAcceptance msg.text = true ∧ sl.2 ≠ str "neutral" ∧ sl.1 ≠ msg.speaker
    then str "pressured acceptance"
    else ruleLabel msg.text
  | none => ruleLabel msg.text

/-- The number of analyses carrying a non-`neutral` final label. -/
def nonNeutralCount (l : List Analysis) : ℕ :=
  l.countP (fun a => decide (a.label ≠ str "neutral"))

/-- The deterministic part of an analysis: everything except the
confidence. -/
def shape (a : Analysis) : List Char × List Char × List Char × List Char :=
  (a.speaker, a.text, a.label, a.explanation)

/-- A concrete randomness stream used by witnesses. -/
def wRs : Nat → ℚ := fun _ => 0

/-- A second concrete randomness stream used by witnesses. -/
def wRs2 : Nat → ℚ := fun _ => 1/2

/-- The two-message scenario of the specification:
`"A: you owe me"` then `"B: okay fine"`. -/
def demoMsgs : List Message :=
  [⟨str "A", str "you owe me"⟩, ⟨str "B", str "okay fine"⟩]

/-- A placeholder analysis for `List.getD`. -/
def dummyAnalysis : Analysis := ⟨[], [], [], 0, []⟩

/-- `Rat.floor` agrees with the mathematical floor. -/
theorem ratFloor_eq_intFloor (q : ℚ) : q.floor = Int.floor q :=
  (Rat.floor_def' q).trans Rat.floor_def.symm

/-- `roundHalfEven` fixes integers. -/
theorem roundHalfEven_intCast (n : ℤ) : roundHalfEven (n : ℚ) = n := by
  simp [roundHalfEven, ratFloor_eq_intFloor, Int.floor_intCast]

/-- `roundHalfEven` respects integer lower bounds. -/
theorem le_roundHalfEven (n : ℤ) (q : ℚ) (h : (n : ℚ) ≤ q) : n ≤ roundHalfEven q := by
  have hf : n ≤ Int.floor q := Int.le_floor.mpr h
  simp only [roundHalfEven, ratFloor_eq_intFloor]
  split_ifs <;> omega

/-- `roundHalfEven` respects integer upper bounds. -/
theorem roundHalfEven_le (n : ℤ) (q : ℚ) (h : q ≤ (n : ℚ)) : roundHalfEven q ≤ n := by
  have hf : Int.floor q ≤ n := by
    have h2 := Int.floor_le_floor h
    simpa using h2
  have hfl : (Int.floor q : ℚ) ≤ q := Int.floor_le q
  simp only [roundHalfEven, ratFloor_eq_intFloor]
  split_ifs with h1 h2 h3
  · exact hf
  · have hq : (Int.floor q : ℚ) < (n : ℚ) := by linarith
    have : Int.floor q < n := by exact_mod_cast hq
    omega
  · exact hf
  · have hge : (1 : ℚ)/2 ≤ q - (Int.floor q : ℚ) := le_of_not_lt h1
    have hq : (Int.floor q : ℚ) < (n : ℚ) := by linarith
    have : Int.floor q < n := by exact_mod_cast hq
    omega

/-- `round2` respects upper bounds that are exact hundredths. -/
theorem round2_le (hi : ℤ) (q : ℚ) (h : q ≤ (hi : ℚ) / 100) : round2 q ≤ (hi : ℚ) / 100 := by
  have h' : q * 100 ≤ (hi : ℚ) := by linarith
  have h2 := roundHalfEven_le hi _ h'
  have h3 : ((roundHalfEven (q * 100) : ℤ) : ℚ) ≤ (hi : ℚ) := by exact_mod_cast h2
  unfold round2
  linarith

/-- `round2` respects lower bounds that are exact hundredths. -/
theorem le_round2 (lo : ℤ) (q : ℚ) (h : (lo : ℚ) / 100 ≤ q) : (lo : ℚ) / 100 ≤ round2 q := by
  have h' : (lo : ℚ) ≤ q * 100 := by linarith
  have h2 := le_roundHalfEven lo _ h'
  have h3 : (lo : ℚ) ≤ ((roundHalfEven (q * 100) : ℤ) : ℚ) := by exact_mod_cast h2
  unfold round2
  linarith

/-- `round2` fixes exact hundredths. -/
theorem round2_hundredth (n : ℤ) : round2 ((n : ℚ) / 100) = (n : ℚ) / 100 := by
  have h : ((n : ℚ) / 100) * 100 = (n : ℚ) := by field_simp
  unfold round2
  rw [h, roundHalfEven_intCast]

/-- `uniform a b r` lies in `[a, b]` when `r` lies in `[0, 1]`. -/
theorem uniform_bounds (a b r : ℚ) (hab : a ≤ b) (h0 : 0 ≤ r) (h1 : r ≤ 1) :
    a ≤ uniform a b r ∧ uniform a b r ≤ b := by
  unfold uniform
  constructor <;> nlinarith

/-- A rounded uniform draw on hundredth endpoints stays between them. -/
theorem conf_range (lo hi : ℤ) (r : ℚ) (hlh : (lo : ℚ) / 100 ≤ (hi : ℚ) / 100)
    (h0 : 0 ≤ r) (h1 : r ≤ 1) :
    (lo : ℚ) / 100 ≤ round2 (uniform ((lo : ℚ) / 100) ((hi : ℚ) / 100) r) ∧
      round2 (uniform ((lo : ℚ) / 100) ((hi : ℚ) / 100) r) ≤ (hi : ℚ) / 100 := by
  have hu := uniform_bounds _ _ _ hlh h0 h1
  exact ⟨le_round2 _ _ hu.1, round2_le _ _ hu.2⟩

/-- The rule label of `analyze_message` does not depend on the randomness. -/
theorem analyze_message_label (rs : Nat → ℚ) (k : Nat) (t : List Char) :
    (analyze_message rs k t).1.1 = ruleLabel t := by
  unfold analyze_message ruleLabel
  cases h : findRule MANIPULATION_RULES (_norm t) <;> simp

/-- The label found by `findRule` is one of the category names. -/
theorem findRule_mem_labels :
    ∀ (rules : List (List Char × List (List Char))) (n : List Char)
      (lt : List Char × List Char),
      findRule rules n = some lt → lt.1 ∈ rules.map Prod.fst := by
  intro rules
  induction rules with
  | nil => intro n lt h; simp [findRule] at h
  | cons hd tl ih =>
    intro n lt h
    rw [findRule] at h
    cases h2 : findTrigger hd.2 n with
    | some t => rw [h2] at h; simp at h; simp [← h]
    | none => rw [h2] at h; simp [ih n lt h]

/-- The rule-based label is never the override label. -/
theorem ruleLabel_ne_pa (t : List Char) : ruleLabel t ≠ str "pressured acceptance" := by
  unfold ruleLabel
  cases h : findRule MANIPULATION_RULES (_norm t) with
  | none => decide
  | some lt =>
    have hm := findRule_mem_labels _ _ _ h
    simp [MANIPULATION_RULES] at hm
    show lt.1 ≠ str "pressured acceptance"
    rcases hm with h1 | h1 | h1 <;> rw [h1] <;> decide

/-- The speaker of a `stepA` result is the message's speaker. -/
theorem stepA_speaker (rs : Nat → ℚ) (k : Nat) (prev : Option Analysis) (msg : Message) :
    ((stepA rs k prev msg).1).speaker = msg.speaker := by
  cases prev with
  | none => rfl
  | some p =>
    by_cases hc : hasAcceptance msg.text = true ∧ p.label ≠ str "neutral" ∧
        p.speaker ≠ msg.speaker
    · simp [stepA, hc]
    · simp [stepA, hc]

/-- The text of a `stepA` result is the message's text. -/
theorem stepA_text (rs : Nat → ℚ) (k : Nat) (prev : Option Analysis) (msg : Message) :
    ((stepA rs k prev msg).1).text = msg.text := by
  cases prev with
  | none => rfl
  | some p =>
    by_cases hc : hasAcceptance msg.text = true ∧ p.label ≠ str "neutral" ∧
        p.speaker ≠ msg.speaker
    · simp [stepA, hc]
    · simp [stepA, hc]

/-- The label computed by `stepA` is `labelStep` of the previous
finalized analysis (its speaker and label) and the current message. -/
theorem stepA_label (rs : Nat → ℚ) (k : Nat) (prev : Option Analysis) (msg : Message) :
    ((stepA rs k prev msg).1).label =
      labelStep (prev.map fun p => (p.speaker, p.label)) msg := by
  cases prev with
  | none => simp [stepA, labelStep, analyze_message_label]
  | some p =>
    by_cases hc : hasAcceptance msg.text = true ∧ p.label ≠ str "neutral" ∧
        p.speaker ≠ msg.speaker
    · simp [stepA, labelStep, hc]
    · simp [stepA, labelStep, hc, analyze_message_label]

/-- The confidence of a `stepA` result is a rounded uniform draw on
[0.75, 0.97] when the final label is the override label, and on
[0.70, 0.95] otherwise. -/
theorem stepA_conf (rs : Nat → ℚ) (k : Nat) (prev : Option Analysis) (msg : Message) :
    (((stepA rs k prev msg).1).label = str "pressured acceptance" ∧
      ∃ j, ((stepA rs k prev msg).1).confidence = round2 (uniform (3/4) (97/100) (rs j))) ∨
    (((stepA rs k prev msg).1).label ≠ str "pressured acceptance" ∧
      ∃ j, ((stepA rs k prev msg).1).confidence = round2 (uniform (7/10) (19/20) (rs j))) := by
  have hb : (analyze_message rs k msg.text).1.1 ≠ str "pressured acceptance" := by
    rw [analyze_message_label]; exact ruleLabel_ne_pa msg.text
  have hbc : (analyze_message rs k msg.text).1.2.1 =
      round2 (uniform (7/10) (19/20) (rs k)) := by
    unfold analyze_message
    cases h : findRule MANIPULATION_RULES (_norm msg.text) <;> simp
  cases prev with
  | none => exact Or.inr ⟨hb, k, hbc⟩
  | some p =>
    by_cases hc : hasAcceptance msg.text = true ∧ p.label ≠ str "neutral" ∧
        p.speaker ≠ msg.speaker
    · left
      constructor
      · simp [stepA, hc]
      · exact ⟨(analyze_message rs k msg.text).2, by simp [stepA, hc]⟩
    · right
      constructor
      · simpa [stepA, hc] using hb
      · exact ⟨k, by simpa [stepA, hc] using hbc⟩

/-- `analyzeGo` produces one analysis per message. -/
theorem analyzeGo_length (rs : Nat → ℚ) :
    ∀ (msgs : List Message) (k : Nat) (prev : Option Analysis) (cnt : Nat),
      ((analyzeGo rs k prev cnt msgs).1).length = msgs.length := by
  intro msgs
  induction msgs with
  | nil => intros; rfl
  | cons m rest ih => intro k prev cnt; simp [analyzeGo, ih]

/-- `analyzeGo` copies speakers positionally. -/
theorem analyzeGo_map_speaker (rs : Nat → ℚ) :
    ∀ (msgs : List Message) (k : Nat) (prev : Option Analysis) (cnt : Nat),
      ((analyzeGo rs k prev cnt msgs).1).map (fun a => a.speaker) =
        msgs.map (fun m => m.speaker) := by
  intro msgs
  induction msgs with
  | nil => intros; rfl
  | cons m rest ih => intro k prev cnt; simp [analyzeGo, ih, stepA_speaker]

/-- `analyzeGo` copies texts positionally. -/
theorem analyzeGo_map_text (rs : Nat → ℚ) :
    ∀ (msgs : List Message) (k : Nat) (prev : Option Analysis) (cnt : Nat),
      ((analyzeGo rs k prev cnt msgs).1).map (fun a => a.text) =
        msgs.map (fun m => m.text) := by
  intro msgs
  induction msgs with
  | nil => intros; rfl
  | cons m rest ih => intro k prev cnt; simp [analyzeGo, ih, stepA_text]

/-- The counter threaded by `analyzeGo` counts the non-neutral final
labels of its output. -/
theorem analyzeGo_count (rs : Nat → ℚ) :
    ∀ (msgs : List Message) (k : Nat) (prev : Option Analysis) (cnt : Nat),
      (analyzeGo rs k prev cnt msgs).2 =
        cnt + nonNeutralCount ((analyzeGo rs k prev cnt msgs).1) := by
  intro msgs
  induction msgs with
  | nil => intros; simp [analyzeGo, nonNeutralCount]
  | cons m rest ih =>
    intro k prev cnt
    simp only [analyzeGo]
    rw [ih]
    simp only [nonNeutralCount, List.countP_cons]
    by_cases h : ((stepA rs k prev m).1).label = str "neutral"
    · simp [h]
    · simp [h]
      omega

/-- The head of the `analyzeGo` output is `stepA` applied to the carried
previous analysis and the first message. -/
theorem analyzeGo_get_zero (rs : Nat → ℚ) (msgs : List Message) (k : Nat)
    (prev : Option Analysis) (cnt : Nat) (m : Message) (h : msgs.get? 0 = some m) :
    ((analyzeGo rs k prev cnt msgs).1).get? 0 = some (stepA rs k prev m).1 := by
  cases msgs with
  | nil => simp at h
  | cons m0 rest =>
    simp at h
    subst h
    simp [analyzeGo]

/-- Each later element of the `analyzeGo` output is `stepA` applied (at
some draw-counter value) to the immediately preceding output element and
the corresponding message. -/
theorem analyzeGo_get_succ (rs : Nat → ℚ) :
    ∀ (msgs : List Message) (k : Nat) (prev : Option Analysis) (cnt : Nat)
      (i : Nat) (ai m ai1),
      ((analyzeGo rs k prev cnt msgs).1).get? i = some ai →
      msgs.get? (i + 1) = some m →
      ((analyzeGo rs k prev cnt msgs).1).get? (i + 1) = some ai1 →
      ∃ j, ai1 = (stepA rs j (some ai) m).1 := by
  intro msgs
  induction msgs with
  | nil => intro k prev cnt i ai m ai1 h1 h2 h3; simp [analyzeGo] at h1
  | cons m0 rest ih =>
    intro k prev cnt i ai m ai1 h1 h2 h3
    simp only [analyzeGo, List.get?_cons_succ] at h1 h2 h3
    cases i with
    | zero =>
      rw [List.get?_cons_zero, Option.some.injEq] at h1
      subst h1
      have h0 := analyzeGo_get_zero rs rest ((stepA rs k prev m0).2)
        (some (stepA rs k prev m0).1)
        (if ((stepA rs k prev m0).1).label ≠ str "neutral" then cnt + 1 else cnt) m h2
      rw [h0, Option.some.injEq] at h3
      exact ⟨(stepA rs k prev m0).2, h3.symm⟩
    | succ i2 =>
      rw [List.get?_cons_succ] at h1
      exact ih _ _ _ i2 ai m ai1 h1 h2 h3

/-- Every analysis produced by `analyzeGo` carries a confidence that is a
rounded uniform draw on [0.75, 0.97] exactly when its label is the
override label, and on [0.70, 0.95] otherwise. -/
theorem analyzeGo_conf (rs : Nat → ℚ) :
    ∀ (msgs : List Message) (k : Nat) (prev : Option Analysis) (cnt : Nat)
      (a : Analysis), a ∈ (analyzeGo rs k prev cnt msgs).1 →
      (a.label = str "pressured acceptance" ∧
        ∃ j, a.confidence = round2 (uniform (3/4) (97/100) (rs j))) ∨
      (a.label ≠ str "pressured acceptance" ∧
        ∃ j, a.confidence = round2 (uniform (7/10) (19/20) (rs j))) := by
  intro msgs
  induction msgs with
  | nil => intro k prev cnt a ha; simp [analyzeGo] at ha
  | cons m rest ih =>
    intro k prev cnt a ha
    simp only [analyzeGo, List.mem_cons] at ha
    rcases ha with ha | ha
    · rw [ha]; exact stepA_conf rs k prev m
    · exact ih _ _ _ a ha

/-- The deterministic part of a `stepA` result depends only on the
message and the deterministic part of the previous analysis. -/
theorem stepA_shape (rs1 rs2 : Nat → ℚ) (k1 k2 : Nat) (prev1 prev2 : Option Analysis)
    (msg : Message) (h : prev1.map shape = prev2.map shape) :
    shape (stepA rs1 k1 prev1 msg).1 = shape (stepA rs2 k2 prev2 msg).1 := by
  cases hf : findRule MANIPULATION_RULES (_norm msg.text) with
  | none =>
    cases prev1 with
    | none =>
      cases prev2 with
      | none => simp [stepA, shape, analyze_message, hf]
      | some p2 => simp [shape] at h
    | some p1 =>
      cases prev2 with
      | none => simp [shape] at h
      | some p2 =>
        simp only [Option.map_some'] at h
        rw [Option.some.injEq] at h
        have hsp : p1.speaker = p2.speaker := congrArg (fun s => s.1) h
        have hlab : p1.label = p2.label := congrArg (fun s => s.2.2.1) h
        by_cases hc : hasAcceptance msg.text = true ∧ p1.label ≠ str "neutral" ∧
            p1.speaker ≠ msg.speaker
        · have hc2 : hasAcceptance msg.text = true ∧ p2.label ≠ str "neutral" ∧
              p2.speaker ≠ msg.speaker := by rw [← hlab, ← hsp]; exact hc
          simp [stepA, shape, hc, hc2, hsp]
        · have hc2 : ¬(hasAcceptance msg.text = true ∧ p2.label ≠ str "neutral" ∧
              p2.speaker ≠ msg.speaker) := by rw [← hlab, ← hsp]; exact hc
          simp [stepA, shape, hc, hc2, analyze_message, hf]
  | some lt =>
    cases prev1 with
    | none =>
      cases prev2 with
      | none => simp [stepA, shape, analyze_message, hf]
      | some p2 => simp [shape] at h
    | some p1 =>
      cases prev2 with
      | none => simp [shape] at h
      | some p2 =>
        simp only [Option.map_some'] at h
        rw [Option.some.injEq] at h
        have hsp : p1.speaker = p2.speaker := congrArg (fun s => s.1) h
        have hlab : p1.label = p2.label := congrArg (fun s => s.2.2.1) h
        by_cases hc : hasAcceptance msg.text = true ∧ p1.label ≠ str "neutral" ∧
            p1.speaker ≠ msg.speaker
        · have hc2 : hasAcceptance msg.text = true ∧ p2.label ≠ str "neutral" ∧
              p2.speaker ≠ msg.speaker := by rw [← hlab, ← hsp]; exact hc
          simp [stepA, shape, hc, hc2, hsp]
        · have hc2 : ¬(hasAcceptance msg.text = true ∧ p2.label ≠ str "neutral" ∧
              p2.speaker ≠ msg.speaker) := by rw [← hlab, ← hsp]; exact hc
          simp [stepA, shape, hc, hc2, analyze_message, hf]

/-- The deterministic parts of the `analyzeGo` output do not depend on
the randomness stream, the draw counter, or the running count. -/
theorem analyzeGo_map_shape (rs1 rs2 : Nat → ℚ) :
    ∀ (msgs : List Message) (k1 k2 : Nat) (prev1 prev2 : Option Analysis)
      (c1 c2 : Nat), prev1.map shape = prev2.map shape →
      (analyzeGo rs1 k1 prev1 c1 msgs).1.map shape =
        (analyzeGo rs2 k2 prev2 c2 msgs).1.map shape := by
  intro msgs
  induction msgs with
  | nil => intros; rfl
  | cons m rest ih =>
    intro k1 k2 prev1 prev2 c1 c2 h
    have hs := stepA_shape rs1 rs2 k1 k2 prev1 prev2 m h
    simp only [analyzeGo, List.map_cons]
    rw [hs]
    rw [ih (stepA rs1 k1 prev1 m).2 (stepA rs2 k2 prev2 m).2
      (some (stepA rs1 k1 prev1 m).1) (some (stepA rs2 k2 prev2 m).1)
      (if ((stepA rs1 k1 prev1 m).1).label ≠ str "neutral" then c1 + 1 else c1)
      (if ((stepA rs2 k2 prev2 m).1).label ≠ str "neutral" then c2 + 1 else c2)
      (by simp [hs])]

/-- `nonNeutralCount` only looks at the deterministic part. -/
theorem nonNeutralCount_congr (l1 l2 : List Analysis)
    (h : l1.map shape = l2.map shape) : nonNeutralCount l1 = nonNeutralCount l2 := by
  have h1 := congrArg
    (List.countP (fun s : List Char × List Char × List Char × List Char =>
      decide (s.2.2.1 ≠ str "neutral"))) h
  simpa [List.countP_map, nonNeutralCount, Function.comp] using h1

/-- An in-bounds `List.getD` is a member of the list. -/
theorem getD_mem {α : Type} : ∀ (l : List α) (i : Nat) (d : α),
    i < l.length → l.getD i d ∈ l := by
  intro l
  induction l with
  | nil => intro i d h; simp at h
  | cons a t ih =>
    intro i d h
    cases i with
    | zero => simp
    | succ i2 =>
      simp only [List.getD_cons_succ, List.mem_cons]
      exact Or.inr (ih i2 d (by simpa using h))

/-- Every confidence reported by `analyze_chat` is in its documented
range: [0.75, 0.97] for the pressured-acceptance override, [0.70, 0.95]
otherwise, hence always within [0.70, 0.97]. -/
theorem analyze_conf_in_range (rs : Nat → ℚ) (msgs : List Message)
    (hrs : ∀ n, 0 ≤ rs n ∧ rs n ≤ 1) :
    ∀ a ∈ (analyze_chat rs msgs).1,
      (7/10 ≤ a.confidence ∧ a.confidence ≤ 97/100) ∧
      (a.label = str "pressured acceptance" →
        3/4 ≤ a.confidence ∧ a.confidence ≤ 97/100) ∧
      (a.label ≠ str "pressured acceptance" →
        7/10 ≤ a.confidence ∧ a.confidence ≤ 19/20) := by
  intro a ha
  have hd := analyzeGo_conf rs msgs 0 none 0 a ha
  rcases hd with ⟨hl, j, hc⟩ | ⟨hl, j, hc⟩
  · have hb := conf_range 75 97 (rs j) (by norm_num) (hrs j).1 (hrs j).2
    norm_num at hb
    rw [hc]
    refine ⟨⟨by linarith [hb.1], hb.2⟩, fun _ => ⟨hb.1, hb.2⟩, fun hne => absurd hl hne⟩
  · have hb := conf_range 70 95 (rs j) (by norm_num) (hrs j).1 (hrs j).2
    norm_num at hb
    rw [hc]
    refine ⟨⟨hb.1, by linarith [hb.2]⟩, fun heq => absurd heq hl, fun _ => ⟨hb.1, hb.2⟩⟩

/-- C10: `analyze_chat` returns exactly one analysis per input message,
in input order, and copies each message's speaker and text unchanged into
the corresponding analysis; the analysis step only adds the label,
confidence and explanation fields. -/
theorem claim_C10_frame (rs : Nat → ℚ) (msgs : List Message) :
    ((analyze_chat rs msgs).1).length = msgs.length ∧
    ((analyze_chat rs msgs).1).map (fun a => a.speaker) = msgs.map (fun m => m.speaker) ∧
    ((analyze_chat rs msgs).1).map (fun a => a.text) = msgs.map (fun m => m.text) :=
  ⟨analyzeGo_length rs msgs 0 none 0,
   analyzeGo_map_speaker rs msgs 0 none 0,
   analyzeGo_map_text rs msgs 0 none 0⟩

/-- C2: the influence score equals `round(count(label != neutral) /
max(len(messages), 1), 2)`, always lies in [0, 1], and an empty input
yields score 0 together with an empty result list. -/
theorem claim_C2_influence_score (rs : Nat → ℚ) (msgs : List Message) :
    (analyze_chat rs msgs).2 =
      round2 ((nonNeutralCount (analyze_chat rs msgs).1 : ℚ) /
        ((max msgs.length 1 : ℕ) : ℚ)) ∧
    0 ≤ (analyze_chat rs msgs).2 ∧ (analyze_chat rs msgs).2 ≤ 1 ∧
    (msgs = [] → (analyze_chat rs msgs).2 = 0 ∧ (analyze_chat rs msgs).1 = []) := by
  have hcnt := analyzeGo_count rs msgs 0 none 0
  have hfst : (analyze_chat rs msgs).1 = (analyzeGo rs 0 none 0 msgs).1 := rfl
  have hform : (analyze_chat rs msgs).2 =
      round2 ((nonNeutralCount (analyze_chat rs msgs).1 : ℚ) /
        ((max msgs.length 1 : ℕ) : ℚ)) := by
    show round2 (((analyzeGo rs 0 none 0 msgs).2 : ℚ) / ((max msgs.length 1 : ℕ) : ℚ)) = _
    rw [hcnt, hfst]
    norm_num
  have hNpos : (0 : ℚ) < ((max msgs.length 1 : ℕ) : ℚ) := by
    have h1 : 1 ≤ max msgs.length 1 := le_max_right _ _
    exact_mod_cast Nat.lt_of_lt_of_le Nat.zero_lt_one h1
  have hle : (nonNeutralCount (analyze_chat rs msgs).1 : ℚ) ≤
      ((max msgs.length 1 : ℕ) : ℚ) := by
    have h1 : nonNeutralCount (analyze_chat rs msgs).1 ≤
        ((analyze_chat rs msgs).1).length := List.countP_le_length _
    have h2 : ((analyze_chat rs msgs).1).length = msgs.length :=
      analyzeGo_length rs msgs 0 none 0
    have h3 : msgs.length ≤ max msgs.length 1 := le_max_left _ _
    have : nonNeutralCount (analyze_chat rs msgs).1 ≤ max msgs.length 1 := by omega
    exact_mod_cast this
  have hratio0 : (0 : ℚ) ≤ (nonNeutralCount (analyze_chat rs msgs).1 : ℚ) /
      ((max msgs.length 1 : ℕ) : ℚ) := by positivity
  have hratio1 : (nonNeutralCount (analyze_chat rs msgs).1 : ℚ) /
      ((max msgs.length 1 : ℕ) : ℚ) ≤ 1 := by
    rw [div_le_one hNpos]
    exact hle
  refine ⟨hform, ?_, ?_, ?_⟩
  · have hz : (((0 : ℤ) : ℚ)) / 100 = 0 := by norm_num
    have h0 : (((0 : ℤ) : ℚ)) / 100 ≤ (nonNeutralCount (analyze_chat rs msgs).1 : ℚ) /
        ((max msgs.length 1 : ℕ) : ℚ) := by rw [hz]; exact hratio0
    have h := le_round2 0 _ h0
    rw [hform]
    rw [hz] at h
    exact h
  · have hz : (((100 : ℤ) : ℚ)) / 100 = 1 := by norm_num
    have h1 : (nonNeutralCount (analyze_chat rs msgs).1 : ℚ) /
        ((max msgs.length 1 : ℕ) : ℚ) ≤ (((100 : ℤ) : ℚ)) / 100 := by
      rw [hz]; exact hratio1
    have h := round2_le 100 _ h1
    rw [hform]
    rw [hz] at h
    exact h
  · intro he
    subst he
    constructor
    · show round2 (((analyzeGo rs 0 none 0 []).2 : ℚ) / ((max (List.length ([] : List Message)) 1 : ℕ) : ℚ)) = 0
      have h := round2_hundredth 0
      norm_num at h
      simpa [analyzeGo] using h
    · rfl

/-- Witness for C2: the empty message list yields score 0 and an empty
result list. -/
theorem claim_C2_witness : (analyze_chat wRs []).2 = 0 ∧ (analyze_chat wRs []).1 = [] :=
  (claim_C2_influence_score wRs []).2.2.2 rfl

/-- C6: every confidence is in [0.70, 0.97]; rule-based classifications
(trigger matches and the neutral fallback) draw from [0.70, 0.95] and
the pressured-acceptance override draws from [0.75, 0.97] (all rounded
to two decimals). -/
theorem claim_C6_confidence_range (rs : Nat → ℚ) (msgs : List Message)
    (hrs : ∀ n, 0 ≤ rs n ∧ rs n ≤ 1) :
    ∀ a ∈ (analyze_chat rs msgs).1,
      (7/10 ≤ a.confidence ∧ a.confidence ≤ 97/100) ∧
      (a.label = str "pressured acceptance" →
        3/4 ≤ a.confidence ∧ a.confidence ≤ 97/100) ∧
      (a.label ≠ str "pressured acceptance" →
        7/10 ≤ a.confidence ∧ a.confidence ≤ 19/20) :=
  analyze_conf_in_range rs msgs hrs

/-- Witness for C6 at a concrete stream and message list. -/
theorem claim_C6_witness :
    7/10 ≤ ((analyze_chat wRs demoMsgs).1.getD 0 dummyAnalysis).confidence ∧
      ((analyze_chat wRs demoMsgs).1.getD 0 dummyAnalysis).confidence ≤ 97/100 := by
  have hlen : ((analyze_chat wRs demoMsgs).1).length = 2 := by
    have h := analyzeGo_length wRs demoMsgs 0 none 0
    simpa [demoMsgs] using h
  have hmem := getD_mem ((analyze_chat wRs demoMsgs).1) 0 dummyAnalysis (by omega)
  exact (claim_C6_confidence_range wRs demoMsgs
    (by intro n; constructor <;> norm_num [wRs]) _ hmem).1

/-- C7: two runs of the analyzer on the same message list produce the
same labels, the same explanations and the same influence score; only
confidences may differ, and they stay in the documented range. -/
theorem claim_C7_two_runs (rs1 rs2 : Nat → ℚ) (msgs : List Message) :
    (analyze_chat rs1 msgs).1.map (fun a => a.label) =
      (analyze_chat rs2 msgs).1.map (fun a => a.label) ∧
    (analyze_chat rs1 msgs).1.map (fun a => a.explanation) =
      (analyze_chat rs2 msgs).1.map (fun a => a.explanation) ∧
    (analyze_chat rs1 msgs).2 = (analyze_chat rs2 msgs).2 ∧
    ((∀ n, 0 ≤ rs1 n ∧ rs1 n ≤ 1) →
      ∀ a ∈ (analyze_chat rs1 msgs).1,
        7/10 ≤ a.confidence ∧ a.confidence ≤ 97/100) := by
  have hsh := analyzeGo_map_shape rs1 rs2 msgs 0 0 none none 0 0 rfl
  refine ⟨?_, ?_, ?_, ?_⟩
  · have h1 := congrArg
      (List.map (fun s : List Char × List Char × List Char × List Char => s.2.2.1)) hsh
    simpa [List.map_map, Function.comp, shape] using h1
  · have h1 := congrArg
      (List.map (fun s : List Char × List Char × List Char × List Char => s.2.2.2)) hsh
    simpa [List.map_map, Function.comp, shape] using h1
  · have hc := nonNeutralCount_congr _ _ hsh
    show round2 (((analyzeGo rs1 0 none 0 msgs).2 : ℚ) / _) =
      round2 (((analyzeGo rs2 0 none 0 msgs).2 : ℚ) / _)
    rw [analyzeGo_count, analyzeGo_count, hc]
  · intro hrs a ha
    exact (analyze_conf_in_range rs1 msgs hrs a ha).1

/-- Witness for C7 at two concrete streams. -/
theorem claim_C7_witness :
    (analyze_chat wRs demoMsgs).1.map (fun a => a.label) =
      (analyze_chat wRs2 demoMsgs).1.map (fun a => a.label) ∧
    (analyze_chat wRs demoMsgs).2 = (analyze_chat wRs2 demoMsgs).2 ∧
    7/10 ≤ ((analyze_chat wRs demoMsgs).1.getD 0 dummyAnalysis).confidence := by
  have h := claim_C7_two_runs wRs wRs2 demoMsgs
  refine ⟨h.1, h.2.2.1, ?_⟩
  have hlen : ((analyze_chat wRs demoMsgs).1).length = 2 := by
    have h2 := analyzeGo_length wRs demoMsgs 0 none 0
    simpa [demoMsgs] using h2
  have hmem := getD_mem ((analyze_chat wRs demoMsgs).1) 0 dummyAnalysis (by omega)
  exact (h.2.2.2 (by intro n; constructor <;> norm_num [wRs]) _ hmem).1

/-- `analyze_chat` wrapper for `analyzeGo_get_zero`. -/
theorem analyze_chat_get_zero (rs : Nat → ℚ) (msgs : List Message) (m0 : Message)
    (h : msgs.get? 0 = some m0) :
    ((analyze_chat rs msgs).1).get? 0 = some (stepA rs 0 none m0).1 :=
  analyzeGo_get_zero rs msgs 0 none 0 m0 h

/-- `analyze_chat` wrapper for `analyzeGo_get_succ`. -/
theorem analyze_chat_get_succ (rs : Nat → ℚ) (msgs : List Message) (i : Nat)
    (ai : Analysis) (m : Message) (ai1 : Analysis)
    (h1 : ((analyze_chat rs msgs).1).get? i = some ai)
    (h2 : msgs.get? (i + 1) = some m)
    (h3 : ((analyze_chat rs msgs).1).get? (i + 1) = some ai1) :
    ∃ j, ai1 = (stepA rs j (some ai) m).1 :=
  analyzeGo_get_succ rs msgs 0 none 0 i ai m ai1 h1 h2 h3

/-- C1: in every analyzed sequence, the final label of a message is the
pressured-acceptance override exactly when the three conditions hold
together — its normalized text contains an acceptance keyword, a
previous finalized analysis exists with a non-neutral label, and that
previous analysis names a different speaker; whenever any condition
fails (including for the first message, which has no predecessor) the
final label is the rule-based label. -/
theorem claim_C1_override_iff (rs : Nat → ℚ) (msgs : List Message) :
    (∀ m0 a0, msgs.get? 0 = some m0 → ((analyze_chat rs msgs).1).get? 0 = some a0 →
      a0.label = ruleLabel m0.text) ∧
    (∀ i ai m ai1, ((analyze_chat rs msgs).1).get? i = some ai →
      msgs.get? (i + 1) = some m →
      ((analyze_chat rs msgs).1).get? (i + 1) = some ai1 →
      ai1.label =
        if hasAcceptance m.text = true ∧ ai.label ≠ str "neutral" ∧ ai.speaker ≠ m.speaker
        then str "pressured acceptance"
        else ruleLabel m.text) := by
  constructor
  · intro m0 a0 h1 h2
    have h0 := analyze_chat_get_zero rs msgs m0 h1
    rw [h0, Option.some.injEq] at h2
    rw [← h2, stepA_label]
    rfl
  · intro i ai m ai1 h1 h2 h3
    obtain ⟨j, hj⟩ := analyze_chat_get_succ rs msgs i ai m ai1 h1 h2 h3
    rw [hj, stepA_label]
    rfl

/-- Witness for C1: in the scenario `A: you owe me` then `B: okay fine`,
the second message is labeled with the override. -/
theorem claim_C1_witness :
    (((analyze_chat wRs demoMsgs).1).get? 1).map (fun a => a.label) =
      some (str "pressured acceptance") := by
  have hlen : ((analyze_chat wRs demoMsgs).1).length = 2 := by
    have h := analyzeGo_length wRs demoMsgs 0 none 0
    simpa [demoMsgs] using h
  have hl0 : (0 : Nat) < 2 := by norm_num
  have hl1 : (1 : Nat) < 2 := by norm_num
  have h0 : ((analyze_chat wRs demoMsgs).1).get? 0 =
      some (((analyze_chat wRs demoMsgs).1).get ⟨0, by omega⟩) := List.get?_eq_get _
  have h1 : ((analyze_chat wRs demoMsgs).1).get? 1 =
      some (((analyze_chat wRs demoMsgs).1).get ⟨1, by omega⟩) := List.get?_eq_get _
  have hz := analyze_chat_get_zero wRs demoMsgs ⟨str "A", str "you owe me"⟩ rfl
  have ha0 : ((analyze_chat wRs demoMsgs).1).get ⟨0, by omega⟩ =
      (stepA wRs 0 none ⟨str "A", str "you owe me"⟩).1 := by
    rw [h0] at hz
    exact (Option.some.injEq _ _).mp hz.symm |>.symm
  have hlab0 : (((analyze_chat wRs demoMsgs).1).get ⟨0, by omega⟩).label =
      str "guilt-tripping" := by
    rw [ha0, stepA_label]
    decide
  have hsp0 : (((analyze_chat wRs demoMsgs).1).get ⟨0, by omega⟩).speaker = str "A" := by
    rw [ha0, stepA_speaker]
  have happ := (claim_C1_override_iff wRs demoMsgs).2 0
    (((analyze_chat wRs demoMsgs).1).get ⟨0, by omega⟩) ⟨str "B", str "okay fine"⟩
    (((analyze_chat wRs demoMsgs).1).get ⟨1, by omega⟩) h0 rfl h1
  rw [h1, Option.map_some']
  rw [happ, if_pos]
  constructor
  · decide
  constructor
  · rw [hlab0]; decide
  · rw [hsp0]; decide

/-- C4: the final label of each message is a fixed function
(`labelStep`) of the message itself and of the immediately preceding
FINALIZED analysis only (its speaker and final label) — in particular a
predecessor that was itself overridden to `pressured acceptance` counts
as non-neutral, so for such a predecessor the override fires exactly
when the keyword and speaker conditions hold. -/
theorem claim_C4_markov (rs : Nat → ℚ) (msgs : List Message) :
    (∀ m0 a0, msgs.get? 0 = some m0 → ((analyze_chat rs msgs).1).get? 0 = some a0 →
      a0.label = labelStep none m0) ∧
    (∀ i ai m ai1, ((analyze_chat rs msgs).1).get? i = some ai →
      msgs.get? (i + 1) = some m →
      ((analyze_chat rs msgs).1).get? (i + 1) = some ai1 →
      ai1.label = labelStep (some (ai.speaker, ai.label)) m ∧
      (ai.label = str "pressured acceptance" →
        ai1.label =
          if hasAcceptance m.text = true ∧ ai.speaker ≠ m.speaker
          then str "pressured acceptance"
          else ruleLabel m.text)) := by
  constructor
  · intro m0 a0 h1 h2
    have h0 := analyze_chat_get_zero rs msgs m0 h1
    rw [h0, Option.some.injEq] at h2
    rw [← h2, stepA_label]
    rfl
  · intro i ai m ai1 h1 h2 h3
    obtain ⟨j, hj⟩ := analyze_chat_get_succ rs msgs i ai m ai1 h1 h2 h3
    have hstep : ai1.label = labelStep (some (ai.speaker, ai.label)) m := by
      rw [hj, stepA_label]
      rfl
    refine ⟨hstep, ?_⟩
    intro hpa
    rw [hstep, hpa]
    have hne : str "pressured acceptance" ≠ str "neutral" := by decide
    simp [labelStep, hne]

/-- Witness for C4: in the scenario the first message's final label is
`labelStep` with no predecessor. -/
theorem claim_C4_witness :
    (((analyze_chat wRs demoMsgs).1).get? 0).map (fun a => a.label) =
      some (str "guilt-tripping") := by
  have hlen : ((analyze_chat wRs demoMsgs).1).length = 2 := by
    have h := analyzeGo_length wRs demoMsgs 0 none 0
    simpa [demoMsgs] using h
  have h0 : ((analyze_chat wRs demoMsgs).1).get? 0 =
      some (((analyze_chat wRs demoMsgs).1).get ⟨0, by omega⟩) := List.get?_eq_get _
  have happ := (claim_C4_markov wRs demoMsgs).1 ⟨str "A", str "you owe me"⟩
    (((analyze_chat wRs demoMsgs).1).get ⟨0, by omega⟩) rfl h0
  rw [h0, Option.map_some', happ]
  decide

/-- `List.find?` returns the element at the first index whose predicate
holds, given that all earlier indices fail. -/
theorem find?_eq_of_first {α : Type} :
    ∀ (l : List α) (p : α → Bool) (j : Nat) (x : α),
      l.get? j = some x → p x = true →
      (∀ j2 y, j2 < j → l.get? j2 = some y → p y = false) →
      l.find? p = some x := by
  intro l
  induction l with
  | nil => intro p j x h _ _; simp at h
  | cons a t ih =>
    intro p j x h hp hbef
    cases j with
    | zero =>
      rw [List.get?_cons_zero, Option.some.injEq] at h
      subst h
      simp [List.find?_cons_of_pos _ hp]
    | succ j2 =>
      rw [List.get?_cons_succ] at h
      have hpa : p a = false := hbef 0 a (Nat.succ_pos j2) rfl
      rw [List.find?_cons_of_neg _ (by simp [hpa])]
      exact ih p j2 x h hp
        (fun j3 y hj3 hy => hbef (j3 + 1) y (by omega) (by simpa using hy))

/-- `findRule` returns the lexicographically first matching
(category, trigger) pair: the category at the first index containing a
matching trigger, with its first matching trigger. -/
theorem findRule_eq_of_first :
    ∀ (rules : List (List Char × List (List Char))) (n : List Char) (i : Nat)
      (lab : List Char) (trigs : List (List Char)) (j : Nat) (trig : List Char),
      rules.get? i = some (lab, trigs) →
      trigs.get? j = some trig →
      substrIn trig n = true →
      (∀ i2 l2 ts2, i2 < i → rules.get? i2 = some (l2, ts2) →
        ∀ t ∈ ts2, substrIn t n = false) →
      (∀ j2 t2, j2 < j → trigs.get? j2 = some t2 → substrIn t2 n = false) →
      findRule rules n = some (lab, trig) := by
  intro rules
  induction rules with
  | nil => intro n i lab trigs j trig h; simp at h
  | cons hd tl ih =>
    intro n i lab trigs j trig hi hj htrig hbefi hbefj
    cases i with
    | zero =>
      rw [List.get?_cons_zero, Option.some.injEq] at hi
      subst hi
      have hft : findTrigger trigs n = some trig :=
        find?_eq_of_first trigs _ j trig hj htrig hbefj
      simp only [findRule]
      rw [hft]
    | succ i2 =>
      rw [List.get?_cons_succ] at hi
      have hhd : ∀ t ∈ hd.2, substrIn t n = false := by
        have h0 := hbefi 0 hd.1 hd.2 (Nat.succ_pos i2) (by simp)
        exact h0
      have hft : findTrigger hd.2 n = none := by
        unfold findTrigger
        rw [List.find?_eq_none]
        intro x hx
        simp [hhd x hx]
      simp only [findRule]
      rw [hft]
      exact ih n i2 lab trigs j trig hi hj htrig
        (fun i3 l3 ts3 hi3 h3 => hbefi (i3 + 1) l3 ts3 (by omega) (by simpa using h3))
        hbefj

/-- C3: the rule-based classifier checks the three categories in the
declared order (guilt-tripping, flattery, fear-pressure) and, within a
category, its triggers in declared list order; the first trigger found
as a substring of the normalized text determines both the label and the
trigger named in the explanation — so a text with triggers from two
categories gets the earlier-priority category. -/
theorem claim_C3_priority (rs : Nat → ℚ) (k : Nat) (text : List Char) (i : Nat)
    (lab : List Char) (trigs : List (List Char)) (j : Nat) (trig : List Char)
    (hi : MANIPULATION_RULES.get? i = some (lab, trigs))
    (hj : trigs.get? j = some trig)
    (htrig : substrIn trig (_norm text) = true)
    (hbefi : ∀ i2 l2 ts2, i2 < i → MANIPULATION_RULES.get? i2 = some (l2, ts2) →
      ∀ t ∈ ts2, substrIn t (_norm text) = false)
    (hbefj : ∀ j2 t2, j2 < j → trigs.get? j2 = some t2 →
      substrIn t2 (_norm text) = false) :
    (analyze_message rs k text).1 =
      (lab, round2 (uniform (7/10) (19/20) (rs k)), explTrigger trig lab) := by
  have hf := findRule_eq_of_first MANIPULATION_RULES (_norm text) i lab trigs j trig
    hi hj htrig hbefi hbefj
  unfold analyze_message
  rw [hf]

/-- Witness for C3: a text containing both a guilt-tripping trigger and
a flattery trigger is labeled guilt-tripping. -/
theorem claim_C3_witness :
    (analyze_message wRs 0 (str "After all, you" ++ [apos] ++ str "re the best")).1.1 =
      str "guilt-tripping" ∧
    substrIn trigYoureBest
      (_norm (str "After all, you" ++ [apos] ++ str "re the best")) = true := by
  constructor
  · have h := claim_C3_priority wRs 0
      (str "After all, you" ++ [apos] ++ str "re the best") 0
      (str "guilt-tripping")
      [str "after all", str "because i", str "you owed me", str "you owe me",
       str "you should have"]
      0 (str "after all") rfl rfl (by decide)
      (by intro i2 l2 ts2 h2; omega)
      (by intro j2 t2 h2; omega)
    have h1 := congrArg Prod.fst h
    simpa using h1
  · decide

/-- A whitespace character is not a word character. -/
theorem ws_not_word (c : Char) (h : isWs c = true) : isWordChar c = false := by
  simp only [isWs, wsChars, List.contains] at h
  simp at h
  rcases h with rfl | rfl | rfl | rfl | rfl | rfl | rfl | rfl | rfl | rfl | rfl | rfl <;>
    decide

/-- A word character is not whitespace. -/
theorem word_not_ws (c : Char) (h : isWordChar c = true) : isWs c = false := by
  cases hw : isWs c
  · rfl
  · have h2 := ws_not_word c hw
    rw [h] at h2
    exact absurd h2 (by simp)

/-- A word character is not a line boundary. -/
theorem word_not_break (c : Char) (h : isWordChar c = true) : isLineBreak c = false := by
  cases hb : isLineBreak c
  · rfl
  · exfalso
    simp only [isLineBreak, lineBreakChars, List.contains] at hb
    simp at hb
    rcases hb with rfl | rfl | rfl | rfl | rfl | rfl | rfl | rfl | rfl | rfl <;>
      exact absurd h (by decide)

/-- `takeWhile` and `dropWhile` on a decomposition whose first part
satisfies the predicate everywhere and whose second part starts with a
failing character (or is empty). -/
theorem takeWhile_dropWhile_append (p : Char → Bool) :
    ∀ (xs ys : List Char), (∀ x ∈ xs, p x = true) →
      (∀ c, ys.head? = some c → p c = false) →
      (xs ++ ys).takeWhile p = xs ∧ (xs ++ ys).dropWhile p = ys := by
  intro xs
  induction xs with
  | nil =>
    intro ys _ h2
    cases ys with
    | nil => exact ⟨rfl, rfl⟩
    | cons c cs =>
      have hc := h2 c rfl
      constructor
      · rw [List.nil_append, List.takeWhile_cons, if_neg (by simp [hc])]
      · rw [List.nil_append, List.dropWhile_cons, if_neg (by simp [hc])]
  | cons x xs2 ih =>
    intro ys h1 h2
    have hx : p x = true := h1 x (by simp)
    obtain ⟨ht, hd⟩ := ih ys (fun y hy => h1 y (List.mem_cons_of_mem _ hy)) h2
    constructor
    · rw [List.cons_append, List.takeWhile_cons, if_pos (by simp [hx]), ht]
    · rw [List.cons_append, List.dropWhile_cons, if_pos (by simp [hx]), hd]

/-- A list fixed by `dropWhile` starts with a failing character. -/
theorem dropWhile_eq_self_head (p : Char → Bool) (m : List Char)
    (h : m.dropWhile p = m) : ∀ c, m.head? = some c → p c = false := by
  intro c hc
  cases m with
  | nil => simp at hc
  | cons a t =>
    have hac : a = c := by simpa using hc
    cases hp : p a
    · rw [← hac]; exact hp
    · exfalso
      rw [List.dropWhile_cons, if_pos (by simp [hp])] at h
      have hlen : (t.dropWhile p).length ≤ t.length :=
        (List.dropWhile_suffix p).length_le
      rw [h] at hlen
      simp at hlen

/-- A line fixed by `strip` is fixed by the leading `dropWhile` and ends
in a non-whitespace character. -/
theorem strip_eq_self_facts (l : List Char) (h : strip l = l) :
    l.dropWhile isWs = l ∧ ∀ c, l.getLast? = some c → isWs c = false := by
  have hsuf : l.dropWhile isWs <:+ l := List.dropWhile_suffix isWs
  have hsuf2 : (l.dropWhile isWs).reverse.dropWhile isWs <:+ (l.dropWhile isWs).reverse :=
    List.dropWhile_suffix isWs
  have hlen : ((l.dropWhile isWs).reverse.dropWhile isWs).length = l.length := by
    have := congrArg List.length h
    simpa [strip] using this
  have hlen2 : (l.dropWhile isWs).length ≤ l.length := hsuf.length_le
  have hlen3 : ((l.dropWhile isWs).reverse.dropWhile isWs).length ≤
      (l.dropWhile isWs).length := by
    have := hsuf2.length_le
    simpa using this
  have heq1 : l.dropWhile isWs = l := hsuf.eq_of_length (by omega)
  refine ⟨heq1, ?_⟩
  have heq2 : (l.dropWhile isWs).reverse.dropWhile isWs = (l.dropWhile isWs).reverse :=
    hsuf2.eq_of_length (by simp; omega)
  rw [heq1] at heq2
  intro c hc
  exact dropWhile_eq_self_head isWs l.reverse heq2 c (by rwa [List.head?_reverse])

/-- Forward half of the speaker-pattern characterization: a successful
match decomposes the stripped line as token, optional whitespace, colon,
and a remainder whose whitespace-stripped tail is the text. -/
theorem speakerMatch_some_elim (l tok txt : List Char) (hstrip : strip l = l)
    (h : speakerMatch l = some (tok, txt)) :
    ∃ mid rest, l = tok ++ mid ++ ':' :: rest ∧ tok ≠ [] ∧
      (∀ c ∈ tok, isWordChar c = true) ∧ (∀ c ∈ mid, isWs c = true) ∧
      txt = rest.dropWhile isWs ∧ txt ≠ [] := by
  obtain ⟨hdw, hlast⟩ := strip_eq_self_facts l hstrip
  simp only [speakerMatch, hdw] at h
  by_cases h1 : (l.takeWhile isWordChar).isEmpty
  · rw [if_pos h1] at h; exact absurd h (by simp)
  rw [if_neg h1] at h
  have hdec : l = l.takeWhile isWordChar ++
      ((l.dropWhile isWordChar).takeWhile isWs ++
        (l.dropWhile isWordChar).dropWhile isWs) := by
    rw [List.takeWhile_append_dropWhile, List.takeWhile_append_dropWhile]
  cases hr2 : (l.dropWhile isWordChar).dropWhile isWs with
  | nil => rw [hr2] at h; exact absurd h (by simp)
  | cons c2 rest =>
    rw [hr2] at h
    have h' : (if c2 = ':' then
        (if (rest.dropWhile isWs).isEmpty = true then
          (match rest.getLast? with
            | some c3 => some (l.takeWhile isWordChar, [c3])
            | none => none)
        else some (l.takeWhile isWordChar, rest.dropWhile isWs))
      else none) = some (tok, txt) := h
    clear h
    by_cases hc2 : c2 = ':'
    case neg => rw [if_neg hc2] at h'; exact absurd h' (by simp)
    rw [if_pos hc2] at h'
    subst hc2
    rw [hr2] at hdec
    by_cases ht : (rest.dropWhile isWs).isEmpty
    · rw [if_pos ht] at h'
      exfalso
      cases hgl : rest.getLast? with
      | none => rw [hgl] at h'; exact absurd h' (by simp)
      | some c3 =>
        have hrestne : rest ≠ [] := by
          intro he; rw [he] at hgl; simp at hgl
        have hallws : ∀ x ∈ rest, isWs x = true :=
          List.dropWhile_eq_nil_iff.mp (List.isEmpty_iff.mp ht)
        have hc3ws : isWs c3 = true := hallws c3 (List.mem_of_mem_getLast? hgl)
        have hglast : l.getLast? = some c3 := by
          rw [hdec]
          rw [List.getLast?_append_of_ne_nil _ (by simp)]
          rw [List.getLast?_append_of_ne_nil _ (by simp)]
          rw [show (':' :: rest).getLast? = rest.getLast? from
            List.getLast?_append_of_ne_nil ([':']) hrestne]
          exact hgl
        have := hlast c3 hglast
        rw [hc3ws] at this
        exact absurd this (by simp)
    · rw [if_neg ht] at h'
      rw [Option.some.injEq, Prod.mk.injEq] at h'
      obtain ⟨htok, htxt⟩ := h'
      refine ⟨(l.dropWhile isWordChar).takeWhile isWs, rest, ?_, ?_, ?_, ?_, ?_, ?_⟩
      · rw [← htok, List.append_assoc]
        exact hdec
      · rw [← htok]
        simpa [List.isEmpty_iff] using h1
      · intro c hc
        rw [← htok] at hc
        exact List.mem_takeWhile_imp hc
      · intro c hc
        exact List.mem_takeWhile_imp hc
      · exact htxt.symm
      · rw [← htxt]
        simpa [List.isEmpty_iff] using ht

/-- Backward half of the speaker-pattern characterization: any line of
the decomposed shape matches, capturing the token and the
whitespace-stripped remainder. -/
theorem speakerMatch_some_of (tok mid rest txt : List Char) (htok : tok ≠ [])
    (hword : ∀ c ∈ tok, isWordChar c = true) (hmid : ∀ c ∈ mid, isWs c = true)
    (htxt : txt = rest.dropWhile isWs) (htxtne : txt ≠ []) :
    speakerMatch (tok ++ mid ++ ':' :: rest) = some (tok, txt) := by
  have hhead : ∀ c, (mid ++ ':' :: rest).head? = some c → isWordChar c = false := by
    intro c hc
    cases mid with
    | nil =>
      have hcc : c = ':' := by simpa using hc.symm
      rw [hcc]; decide
    | cons m ms =>
      have hcm : c = m := by simpa using hc.symm
      rw [hcm]
      exact ws_not_word m (hmid m (by simp))
  obtain ⟨htw, hdw⟩ := takeWhile_dropWhile_append isWordChar tok (mid ++ ':' :: rest)
    hword hhead
  have hwshead : ∀ c, ((':' :: rest) : List Char).head? = some c → isWs c = false := by
    intro c hc
    have hcc : c = ':' := by simpa using hc.symm
    rw [hcc]; decide
  obtain ⟨htw2, hdw2⟩ := takeWhile_dropWhile_append isWs mid (':' :: rest) hmid hwshead
  have hlnws : (tok ++ (mid ++ ':' :: rest)).dropWhile isWs = tok ++ (mid ++ ':' :: rest) := by
    cases tok with
    | nil => exact absurd rfl htok
    | cons t ts =>
      rw [List.cons_append, List.dropWhile_cons, if_neg]
      simp [word_not_ws t (hword t (by simp))]
  have hempty : tok.isEmpty = false := by
    cases tok with
    | nil => exact absurd rfl htok
    | cons t ts => rfl
  have hemptyt : (rest.dropWhile isWs).isEmpty = false := by
    rw [← htxt]
    cases txt with
    | nil => exact absurd rfl htxtne
    | cons x xs => rfl
  rw [List.append_assoc]
  simp only [speakerMatch]
  rw [hlnws, htw, hdw, hdw2, hempty]
  rw [if_neg (by simp)]
  have hfinal : (if (rest.dropWhile isWs).isEmpty = true then
      (match rest.getLast? with
        | some c3 => some (tok, [c3])
        | none => none)
    else some (tok, rest.dropWhile isWs)) = some (tok, txt) := by
    rw [hemptyt, if_neg (by simp), ← htxt]
  exact hfinal

/-- The `preprocess_chat` loop equals stripping every line, discarding
the blank ones, and mapping the per-line constructor over the rest. -/
theorem preprocessLines_eq (lines : List (List Char)) :
    preprocessLines lines =
      (((lines.map strip).filter (fun l => !l.isEmpty)).map lineToMsg) := by
  induction lines with
  | nil => rfl
  | cons raw rest ih =>
    simp only [preprocessLines, List.map_cons, List.filter_cons]
    by_cases h : (strip raw).isEmpty
    · simp [h, ih]
    · simp [h, ih]

/-- C5: the segmenter always succeeds, producing (in input order) one
message per line that is nonblank after trimming; a line matching the
speaker pattern contributes its captured token as speaker and the
remainder after the colon and its optional whitespace as text (not
re-trimmed further), and any other line contributes speaker `Unknown`
with the full trimmed line as text. -/
theorem claim_C5_segmenter (chat : List Char) :
    preprocess_chat chat =
      (((splitlines chat).map strip).filter (fun l => !l.isEmpty)).map lineToMsg ∧
    (∀ l tok txt, speakerMatch l = some (tok, txt) → lineToMsg l = ⟨tok, txt⟩) ∧
    (∀ l, speakerMatch l = none → lineToMsg l = ⟨str "Unknown", l⟩) ∧
    (∀ l tok txt, strip l = l →
      (speakerMatch l = some (tok, txt) ↔
        ∃ mid rest, l = tok ++ mid ++ ':' :: rest ∧ tok ≠ [] ∧
          (∀ c ∈ tok, isWordChar c = true) ∧ (∀ c ∈ mid, isWs c = true) ∧
          txt = rest.dropWhile isWs ∧ txt ≠ [])) := by
  refine ⟨preprocessLines_eq (splitlines chat), ?_, ?_, ?_⟩
  · intro l tok txt h
    simp [lineToMsg, h]
  · intro l h
    simp [lineToMsg, h]
  · intro l tok txt hstrip
    constructor
    · exact speakerMatch_some_elim l tok txt hstrip
    · rintro ⟨mid, rest, hdec, htok, hword, hmid, htxt, htxtne⟩
      rw [hdec]
      exact speakerMatch_some_of tok mid rest txt htok hword hmid htxt htxtne

/-- Witness for C5 on the line `A: hi`. -/
theorem claim_C5_witness :
    preprocess_chat (str "A: hi") = [⟨str "A", str "hi"⟩] ∧
    speakerMatch (str "A: hi") = some (str "A", str "hi") := by
  have h := claim_C5_segmenter (str "A: hi")
  constructor
  · rw [h.1]; decide
  · exact (h.2.2.2 (str "A: hi") (str "A") (str "hi") (by decide)).mpr
      ⟨[], str " hi", by decide, by decide, by decide, by decide, by decide, by decide⟩

/-- `splitlinesAux` on a segment without line boundaries yields the
accumulated segment (when nonempty). -/
theorem splitlinesAux_no_break :
    ∀ (s acc : List Char), (∀ c ∈ s, isLineBreak c = false) →
      splitlinesAux s acc =
        if (acc.reverse ++ s).isEmpty then [] else [acc.reverse ++ s] := by
  intro s
  induction s with
  | nil =>
    intro acc h
    simp [splitlinesAux]
  | cons c cs ih =>
    intro acc h
    have hc : isLineBreak c = false := h c (by simp)
    have hcr : c ≠ '\r' := by
      intro he
      rw [he] at hc
      exact absurd hc (by decide)
    have hbody := splitlinesAux.eq_3 acc c cs (fun cs1 hc1 _ => absurd hc1 hcr)
    rw [hbody, hc]
    rw [if_neg (by simp)]
    rw [ih (c :: acc) (fun x hx => h x (by simp [hx]))]
    have hrw : (c :: acc).reverse ++ cs = acc.reverse ++ c :: cs := by
      rw [List.reverse_cons, List.append_assoc]
      rfl
    rw [hrw]

/-- A nonempty string without line boundaries is a single line. -/
theorem splitlines_single (s : List Char) (hne : s ≠ [])
    (h : ∀ c ∈ s, isLineBreak c = false) : splitlines s = [s] := by
  unfold splitlines
  rw [splitlinesAux_no_break s [] h]
  simp [List.isEmpty_iff, hne]

/-- C9: a line whose trimmed form is a word token immediately followed
by a colon with nothing (or only trailing blanks) after it does not
match the speaker pattern — the pattern demands a nonempty remainder —
so the segmenter emits it as an `Unknown`-speaker message whose text is
the trimmed line, colon included. -/
theorem claim_C9_bare_colon (tok wsp : List Char) (htok : tok ≠ [])
    (hword : ∀ c ∈ tok, isWordChar c = true)
    (hwsp : ∀ c ∈ wsp, c = ' ' ∨ c = '\t') :
    speakerMatch (tok ++ [':']) = none ∧
    preprocess_chat (tok ++ ':' :: wsp) = [⟨str "Unknown", tok ++ [':']⟩] := by
  have hwspws : ∀ c ∈ wsp, isWs c = true := by
    intro c hc
    rcases hwsp c hc with rfl | rfl <;> decide
  have hmatch : speakerMatch (tok ++ [':']) = none := by
    have hhead : ∀ c, (([':'] : List Char)).head? = some c → isWordChar c = false := by
      intro c hc
      have hcc : c = ':' := by simpa using hc.symm
      rw [hcc]; decide
    obtain ⟨htw, hdw⟩ := takeWhile_dropWhile_append isWordChar tok [':'] hword hhead
    have hlnws : (tok ++ [':']).dropWhile isWs = tok ++ [':'] := by
      cases tok with
      | nil => exact absurd rfl htok
      | cons t ts =>
        rw [List.cons_append, List.dropWhile_cons, if_neg]
        simp [word_not_ws t (hword t (by simp))]
    have hempty : tok.isEmpty = false := by
      cases tok with
      | nil => exact absurd rfl htok
      | cons t ts => rfl
    have hdw2 : (([':'] : List Char)).dropWhile isWs = [':'] := by
      rw [List.dropWhile_cons, if_neg (by decide)]
    simp only [speakerMatch]
    rw [hlnws, htw, hdw, hdw2, hempty]
    rw [if_neg (by simp)]
    rfl
  refine ⟨hmatch, ?_⟩
  have hnobreak : ∀ c ∈ tok ++ ':' :: wsp, isLineBreak c = false := by
    intro c hc
    rcases List.mem_append.mp hc with hc1 | hc1
    · exact word_not_break c (hword c hc1)
    · rcases List.mem_cons.mp hc1 with rfl | hc2
      · decide
      · rcases hwsp c hc2 with rfl | rfl <;> decide
  have hsplit : splitlines (tok ++ ':' :: wsp) = [tok ++ ':' :: wsp] :=
    splitlines_single _ (by simp) hnobreak
  have hstripline : strip (tok ++ ':' :: wsp) = tok ++ [':'] := by
    unfold strip
    have hlnws : (tok ++ ':' :: wsp).dropWhile isWs = tok ++ ':' :: wsp := by
      cases tok with
      | nil => exact absurd rfl htok
      | cons t ts =>
        rw [List.cons_append, List.dropWhile_cons, if_neg]
        simp [word_not_ws t (hword t (by simp))]
    rw [hlnws]
    have hrev : (tok ++ ':' :: wsp).reverse = wsp.reverse ++ ':' :: tok.reverse := by
      rw [List.reverse_append, List.reverse_cons, List.append_assoc]
      rfl
    rw [hrev]
    have hwshead : ∀ c, ((':' :: tok.reverse) : List Char).head? = some c →
        isWs c = false := by
      intro c hc
      have hcc : c = ':' := by simpa using hc.symm
      rw [hcc]; decide
    obtain ⟨_, hdwr⟩ := takeWhile_dropWhile_append isWs wsp.reverse (':' :: tok.reverse)
      (fun c hc => hwspws c (List.mem_reverse.mp hc)) hwshead
    rw [hdwr]
    rw [List.reverse_cons, List.reverse_reverse]
  unfold preprocess_chat
  rw [hsplit]
  simp only [preprocessLines, hstripline]
  rw [if_neg (by simp [List.isEmpty_iff])]
  have hltm : lineToMsg (tok ++ [':']) = ⟨str "Unknown", tok ++ [':']⟩ := by
    simp [lineToMsg, hmatch]
  rw [hltm]

/-- Witness for C9 on the line `Alice:`. -/
theorem claim_C9_witness :
    speakerMatch (str "Alice" ++ [':']) = none ∧
    preprocess_chat (str "Alice" ++ ':' :: []) = [⟨str "Unknown", str "Alice" ++ [':']⟩] :=
  claim_C9_bare_colon (str "Alice") [] (by decide) (by decide) (by decide)
